import Mathlib

/-!
Verification of the video-URL extraction and fetch-dispatch logic of
`browser_download.py`.

The page (as seen through the browser's query interface), the file at the
destination path and the external downloader invocations are modelled
explicitly; each definition follows the corresponding region of the source.
The browser engine, `urllib` and the downloader binaries are collaborators:
the page query results and the outcome of each subprocess invocation are
inputs of the model, everything the script itself computes is translated
line by line.
-/

namespace BrowserDownload

/-! Basic string machinery used by the source (`str.startswith`,
substring containment `x in s`, `str.strip`, `str.lower`). -/

/-- The characters of the source's quote classes `["\']`. -/
def isQuoteChar (c : Char) : Bool := c == '"' || c == '\''

/-- Boolean test that the first list begins with the second. -/
def listStartsWith : List Char → List Char → Bool
  | _, [] => true
  | [], _ :: _ => false
  | c :: cs, p :: ps => c == p && listStartsWith cs ps

/-- Python `s.startswith(p)`. -/
def strStartsWith (s p : String) : Bool := listStartsWith s.data p.data

/-- Occurrence of the second list anywhere inside the first. -/
def listContainsSub : List Char → List Char → Bool
  | [], sub => sub.isEmpty
  | c :: cs, sub => listStartsWith (c :: cs) sub || listContainsSub cs sub

/-- Python `sub in s` on strings. -/
def strContains (s sub : String) : Bool := listContainsSub s.data sub.data

/-- Remove an expected literal off the front, `none` when it is not there. -/
def dropLit : List Char → List Char → Option (List Char)
  | l, [] => some l
  | [], _ :: _ => none
  | c :: cs, p :: ps => if c == p then dropLit cs ps else none

/-- Python `s.lower()` on the ASCII text this script applies it to. -/
def strLower (s : String) : String := String.mk (s.data.map Char.toLower)

/-- Python `u.strip('"\'')`: quote characters removed from both ends. -/
def stripQuotes (s : String) : String :=
  let l1 := s.data.dropWhile isQuoteChar
  String.mk (l1.reverse.dropWhile isQuoteChar).reverse

/-! The two regular expressions of `find_video_urls_on_page`, implemented
directly with Python `re` leftmost/greedy semantics for these patterns. -/

/-- The `https?://` part of both media-URL patterns; returns the matched
scheme text and the remainder. -/
def matchHttpScheme (l : List Char) : Option (List Char × List Char) :=
  match dropLit l "https://".data with
  | some r => some ("https://".data, r)
  | none =>
    match dropLit l "http://".data with
    | some r => some ("http://".data, r)
    | none => none

/-- The alternation `\.(?:mp4|m3u8|webm)` at the head of the list. -/
def startsWithMediaExt (l : List Char) : Bool :=
  listStartsWith l ".mp4".data || listStartsWith l ".m3u8".data ||
    listStartsWith l ".webm".data

/-- The extension alternation occurring at some position of the list. -/
def hasMediaExtAt : List Char → Bool
  | [] => false
  | c :: rest => startsWithMediaExt (c :: rest) || hasMediaExtAt rest

/-- The extension alternation occurring with at least one character before
it (the `[^"\']+` of the pattern is non-empty). -/
def hasMediaExtInside : List Char → Bool
  | [] => false
  | _ :: rest => hasMediaExtAt rest

/-- Group-1 match of the inline-script pattern
`["\'](https?://[^"\']+\.(?:mp4|m3u8|webm)[^"\']*)["\']` at the head of the
list: an opening quote, the scheme, then the maximal quote-free run, which
must contain a media extension after at least one character and be closed by
a quote.  Returns the captured group and the text after the closing quote. -/
def matchScriptAt : List Char → Option (List Char × List Char)
  | [] => none
  | c :: cs =>
    if isQuoteChar c then
      match matchHttpScheme cs with
      | some (pre, r) =>
        match r.drop (r.takeWhile (fun ch => !(isQuoteChar ch))).length with
        | q :: rest2 =>
          if isQuoteChar q && hasMediaExtInside (r.takeWhile (fun ch => !(isQuoteChar ch))) then
            some (pre ++ r.takeWhile (fun ch => !(isQuoteChar ch)), rest2)
          else none
        | [] => none
      | none => none
    else none

/-- Scan of `re.findall`: try a match at every position, emit the captured
group and continue after each match.  The fuel is the input length, which
bounds the number of scan steps. -/
def findallScriptAux : Nat → List Char → List String
  | 0, _ => []
  | _ + 1, [] => []
  | fuel + 1, c :: cs =>
    match matchScriptAt (c :: cs) with
    | some (g, rest) => String.mk g :: findallScriptAux fuel rest
    | none => findallScriptAux fuel cs

/-- `re.findall` of the media-URL pattern over inline script text
(source line 58). -/
def findallScript (content : String) : List String :=
  findallScriptAux content.data.length content.data

/-- The field-name alternation of the JSON pattern (source line 66). -/
def JSON_KEYS : List String := ["videoUrl", "src", "streamUrl", "url", "file"]

/-- One of the field names followed by its closing double quote. -/
def matchOneKey : List String → List Char → Option (List Char)
  | [], _ => none
  | k :: ks, l =>
    match dropLit l (k.data ++ ['"']) with
    | some r => some r
    | none => matchOneKey ks l

/-- ASCII members of Python's `\s` class. -/
def isPySpace (c : Char) : Bool :=
  c == ' ' || c == '\t' || c == '\n' || c == '\r' || c == '\x0b' || c == '\x0c'

/-- The optional extra quote `["\']?` after the field name's closing
double quote (consuming it when present is complete here, since a
backtrack could only help if the quote could also match `\s*:`). -/
def skipOptQuote : List Char → List Char
  | q :: rest => if isQuoteChar q then rest else q :: rest
  | [] => []

/-- Group-1 match of the JSON pattern
`"(?:videoUrl|src|streamUrl|url|file)"["\']?\s*:\s*["\'](https?://[^"\']+)["\']`
at the head of the list. -/
def matchJsonAt : List Char → Option (List Char × List Char)
  | [] => none
  | c :: cs =>
    if c == '"' then
      match matchOneKey JSON_KEYS cs with
      | none => none
      | some r1 =>
        match (skipOptQuote r1).dropWhile isPySpace with
        | ':' :: r4 =>
          match r4.dropWhile isPySpace with
          | q2 :: r6 =>
            if isQuoteChar q2 then
              match matchHttpScheme r6 with
              | some (pre, r7) =>
                match r7.drop (r7.takeWhile (fun ch => !(isQuoteChar ch))).length with
                | q3 :: rest2 =>
                  if isQuoteChar q3 && !(r7.takeWhile (fun ch => !(isQuoteChar ch))).isEmpty then
                    some (pre ++ r7.takeWhile (fun ch => !(isQuoteChar ch)), rest2)
                  else none
                | [] => none
              | none => none
            else none
          | [] => none
        | _ => none
    else none

/-- Scan of `re.findall` for the JSON pattern. -/
def findallJsonAux : Nat → List Char → List String
  | 0, _ => []
  | _ + 1, [] => []
  | fuel + 1, c :: cs =>
    match matchJsonAt (c :: cs) with
    | some (g, rest) => String.mk g :: findallJsonAux fuel rest
    | none => findallJsonAux fuel cs

/-- `re.findall` of the JSON field pattern over a structured JSON block
(source line 66). -/
def findallJson (content : String) : List String :=
  findallJsonAux content.data.length content.data

/-! A model of the collaborator `urllib.parse.urljoin`, used by the source
only on anchor `href` values (line 75). -/

/-- Schemes treated as relative-capable by `urllib.parse`. -/
def uses_relative : List String :=
  ["", "ftp", "http", "gopher", "nntp", "imap", "wais", "file", "https",
   "shttp", "mms", "prospero", "rtsp", "rtspu", "sftp", "svn", "svn+ssh",
   "ws", "wss"]

def isSchemeChar (c : Char) : Bool := c.isAlphanum || c == '+' || c == '-' || c == '.'

/-- Split a URL into its scheme (lowercased) and the part after the colon,
with `urllib`'s validity conditions on the scheme text. -/
def schemeSplit (s : String) : Option (String × String) :=
  let pre := s.data.takeWhile (fun c => !(c == ':'))
  match s.data.drop pre.length with
  | ':' :: r =>
    match pre with
    | [] => none
    | c :: _ =>
      if c.isAlpha && pre.all isSchemeChar then
        some (strLower (String.mk pre), String.mk r)
      else none
  | _ => none

def schemeOf (s : String) : String :=
  match schemeSplit s with
  | some (sc, _) => sc
  | none => ""

/-- Split `//netloc/path` into netloc and path. -/
def splitNetloc (s : String) : String × String :=
  match dropLit s.data "//".data with
  | some r =>
    let nl := r.takeWhile (fun c => !(c == '/'))
    (String.mk nl, String.mk (r.drop nl.length))
  | none => ("", s)

/-- The base path up to and including its last slash. -/
def dirOfPath (p : String) : String :=
  String.mk (p.data.reverse.dropWhile (fun c => !(c == '/'))).reverse

/-- Modelled from the collaborator `urllib.parse.urljoin`: empty arguments
returned unchanged, a URL whose scheme differs from the base's (or is not
relative-capable) returned as is, otherwise resolution against the base by
netloc/path merging.  Query/fragment splitting and dot-segment
normalisation of the genuinely relative case are simplified away; no
property proved below depends on that branch's exact value. -/
def urljoin (base url : String) : String :=
  if base == "" then url
  else if url == "" then base
  else
    let bscheme := schemeOf base
    let (uscheme, urest) :=
      match schemeSplit url with
      | some (sc, r) => (sc, r)
      | none => (bscheme, url)
    if uscheme != bscheme || !(uses_relative.contains uscheme) then url
    else
      let brest := match schemeSplit base with
        | some (_, r) => r
        | none => base
      let (bnetloc, bpath) := splitNetloc brest
      if listStartsWith urest.data "//".data then bscheme ++ ":" ++ urest
      else if listStartsWith urest.data "/".data then
        bscheme ++ "://" ++ bnetloc ++ urest
      else bscheme ++ "://" ++ bnetloc ++ dirOfPath bpath ++ urest

/-! The page model: the results of the six `query_selector_all` calls of
`find_video_urls_on_page`, with the attribute/evaluation results the source
reads from each element.  Selector semantics live in the browser
collaborator, so the lists are inputs. -/

/-- A `<video>` element: its `src` attribute and the page-evaluated
`el.src` (`none` models a missing attribute, resp. a failed evaluation). -/
structure VideoEl where
  src : Option String
  evalSrc : Option String
deriving DecidableEq

/-- A `<source>` child of a `<video>` element. -/
structure SourceEl where
  src : Option String
deriving DecidableEq

/-- An element matched by the lazy-load selector
`[data-src*='.mp4'], [data-src*='.m3u8'], [data-src*='video']`. -/
structure LazyEl where
  dataSrc : Option String
deriving DecidableEq

/-- A script element with its `inner_html` text (the source's `or \x22\x22`
already normalises a falsy result to the empty string). -/
structure ScriptEl where
  innerHtml : String
deriving DecidableEq

/-- An anchor matched by
`a[href*='/download/'], a[href*='/get_file/'], a[href*='.mp4']`. -/
structure LinkEl where
  href : Option String
deriving DecidableEq

/-- The rendered page as consumed by `find_video_urls_on_page`: one field
per `query_selector_all` call, in source order. -/
structure Page where
  videos : List VideoEl
  videoSources : List SourceEl
  lazyEls : List LazyEl
  scripts : List ScriptEl
  jsonScripts : List ScriptEl
  anchorLinks : List LinkEl
deriving DecidableEq

/-! The scans of `find_video_urls_on_page` (source lines 26-85). -/

/-- Loop body of the `<video>` scan (lines 30-41): the `src` attribute and
the evaluated effective `el.src`, each skipped when falsy or a blob
reference, the effective value also when equal to the attribute. -/
def videoElCands (v : VideoEl) : List (String × String) :=
  (match v.src with
   | some s =>
     if s != "" && !(strStartsWith s "blob:") then [("video", s)] else []
   | none => []) ++
  (match v.evalSrc with
   | some e =>
     if e != "" && !(some e == v.src) && !(strStartsWith e "blob:") then
       [("video_effective", e)]
     else []
   | none => [])

def videoCandidates (vs : List VideoEl) : List (String × String) :=
  vs.flatMap videoElCands

/-- Loop body of the `<source>` scan (lines 43-47). -/
def sourceElCands (s : SourceEl) : List (String × String) :=
  match s.src with
  | some v => if v != "" && !(strStartsWith v "blob:") then [("source", v)] else []
  | none => []

/-- Loop body of the lazy-load scan (lines 49-53). -/
def lazyElCands (e : LazyEl) : List (String × String) :=
  match e.dataSrc with
  | some v => if v != "" && !(strStartsWith v "blob:") then [("data-src", v)] else []
  | none => []

/-- Loop body of the inline-script scan (lines 55-61). -/
def scriptElCands (s : ScriptEl) : List (String × String) :=
  (findallScript s.innerHtml).filterMap fun u =>
    if !(strStartsWith u "blob:") then some ("script", stripQuotes u) else none

/-- Loop body of the JSON-config scan (lines 63-69). -/
def jsonElCands (s : ScriptEl) : List (String × String) :=
  (findallJson s.innerHtml).filterMap fun u =>
    if !(strStartsWith u "blob:") then some ("json", u) else none

/-- The keyword allowlist of the anchor scan (line 74). -/
def LINK_KEYWORDS : List String := [".mp4", ".m3u8", "video", "download"]

/-- Loop body of the anchor scan (lines 71-76): a truthy `href` containing
one of the keywords, resolved against the page URL. -/
def linkElCands (pageUrl : String) (l : LinkEl) : List (String × String) :=
  match l.href with
  | some h =>
    if h != "" && LINK_KEYWORDS.any (fun x => strContains (strLower h) x) then
      [("download_link", urljoin pageUrl h)]
    else []
  | none => []

/-- All candidates in source order, before deduplication: the six scans
appended in the order they run, the anchor scan limited to `links[:10]`. -/
def rawCandidates (page : Page) (url : String) : List (String × String) :=
  videoCandidates page.videos ++
  page.videoSources.flatMap sourceElCands ++
  page.lazyEls.flatMap lazyElCands ++
  page.scripts.flatMap scriptElCands ++
  page.jsonScripts.flatMap jsonElCands ++
  (page.anchorLinks.take 10).flatMap (linkElCands url)

/-- First-seen deduplication by URL (lines 78-84); `seen` is the set of
URLs already kept. -/
def dedupe : List (String × String) → List String → List (String × String)
  | [], _ => []
  | (t, u) :: rest, seen =>
    if u ∈ seen then dedupe rest seen
    else (t, u) :: dedupe rest (u :: seen)

/-- `find_video_urls_on_page` (lines 26-85). -/
def find_video_urls_on_page (page : Page) (url : String) : List (String × String) :=
  dedupe (rawCandidates page url) []

/-- The image/thumbnail denylist applied in `download_with_browser`
(line 196). -/
def IMAGE_DENYLIST : List String :=
  [".jpg", ".jpeg", ".png", ".gif", ".svg", ".webp", "poster", "thumbnail",
   "avatar", "logo"]

def denylisted (vurl : String) : Bool :=
  IMAGE_DENYLIST.any fun x => strContains (strLower vurl) x

/-- The candidate list `download_with_browser` works from: the extractor's
output with the image/thumbnail filter applied (lines 193-196).  This is
the spec's ExtractionResult. -/
def extractionResult (page : Page) (url : String) : List (String × String) :=
  (find_video_urls_on_page page url).filter fun p => !(denylisted p.2)

/-! The fetch dispatcher (source lines 108-273).  The destination file is
`some size` when a file of that size is at the destination and `none` when
absent; each subprocess invocation's outcome (its return code, or the fact
that it raised, and the destination file state it leaves behind) is an
input of the model, indexed by invocation count. -/

def MIN_VIDEO_SIZE : Nat := 1024 * 1024

def VIDEO_EXTENSIONS : List String := [".mp4", ".m3u8", ".webm", ".mkv", ".avi", ".mov"]

/-- `get_file_size` (lines 19-24) on the modelled destination file. -/
def get_file_size : Option Nat → Nat
  | none => 0
  | some n => n

/-- The extension part of `os.path.splitext` on the destination file name:
from the last dot of the name, leading dots not counted. -/
def splitextExt (name : String) : String :=
  let rest := name.data.dropWhile (fun c => c == '.')
  if rest.any (fun c => c == '.') then
    String.mk ('.' :: (rest.reverse.takeWhile (fun c => !(c == '.'))).reverse)
  else ""

/-- The `ext` of line 236: `os.path.splitext(dest_path)[1].lower()`. -/
def splitextExtLower (filename : String) : String := strLower (splitextExt filename)

/-- Result of one external downloader invocation: it ran and returned a
code, or it raised (for example on timeout expiry); in both cases the
destination file it leaves behind. -/
inductive Outcome where
  | ran (rc : Int) (fileAfter : Option Nat)
  | raised (fileAfter : Option Nat)
deriving DecidableEq

def fileOf : Outcome → Option Nat
  | .ran _ f => f
  | .raised f => f

/-- Observable events of a run: an external downloader invocation (with
the backend name, the URL, the subprocess timeout in seconds and the
destination file state when the call starts), the removal of the
destination file, and the closing of the browser. -/
inductive Ev where
  | call (backend : String) (vurl : String) (timeoutSecs : Nat) (fileAtStart : Option Nat)
  | removeFile
  | closeBrowser
deriving DecidableEq

inductive LoopExit where
  | success
  | exhausted
  | raised
deriving DecidableEq

inductive StepRes where
  | accepted
  | failed
  | raisedE
deriving DecidableEq

/-- The aria2c attempt (lines 220-246), run inside `try`/`except`: accepted
when the process exits 0 and the destination file exists with size at least
`MIN_VIDEO_SIZE` or a known media extension; an existing too-small file
after exit 0 is removed; a raised invocation is caught. -/
def ariaStep (o : Outcome) (ext : String) (vurl : String) (fs : Option Nat) :
    Bool × List Ev × Option Nat :=
  let c := Ev.call "aria2c" vurl 600 fs
  match o with
  | .raised fs1 => (false, [c], fs1)
  | .ran rc fs1 =>
    if rc = 0 then
      match fs1 with
      | some size =>
        if MIN_VIDEO_SIZE ≤ size ∨ ext ∈ VIDEO_EXTENSIONS then (true, [c], some size)
        else (false, [c, Ev.removeFile], none)
      | none => (false, [c], none)
    else (false, [c], fs1)

/-- The yt-dlp attempt (lines 250-264), not wrapped in `try`: accepted only
when the process exits 0 and the destination file exists with size at least
`MIN_VIDEO_SIZE`; a raised invocation propagates to the outer handler. -/
def ytStep (o : Outcome) (vurl : String) (fs : Option Nat) :
    StepRes × List Ev × Option Nat :=
  let c := Ev.call "yt-dlp" vurl 600 fs
  match o with
  | .raised fs1 => (.raisedE, [c], fs1)
  | .ran rc fs1 =>
    if rc = 0 then
      match fs1 with
      | some size =>
        if MIN_VIDEO_SIZE ≤ size then (.accepted, [c], some size)
        else (.failed, [c], some size)
      | none => (.failed, [c], none)
    else (.failed, [c], fs1)

/-- The candidate loop of `download_with_browser` (lines 211-264): blob and
non-http URLs are skipped, then aria2c and yt-dlp are attempted in order;
acceptance closes the browser and ends the run, a propagated yt-dlp
exception ends the loop as `raised`.  `k` counts subprocess invocations,
`env` gives each invocation's outcome, `fs` is the destination file. -/
def tryCandidates (env : Nat → Outcome) (ext : String) :
    List (String × String) → Nat → Option Nat → LoopExit × List Ev × Option Nat × Nat
  | [], k, fs => (.exhausted, [], fs, k)
  | (_, vurl) :: rest, k, fs =>
    if strStartsWith vurl "blob:" then tryCandidates env ext rest k fs
    else if !(strStartsWith vurl "http") then tryCandidates env ext rest k fs
    else
      match ariaStep (env k) ext vurl fs with
      | (true, evs, fs1) => (.success, evs ++ [Ev.closeBrowser], fs1, k + 1)
      | (false, evs, fs1) =>
        match ytStep (env (k + 1)) vurl fs1 with
        | (.accepted, evs2, fs2) => (.success, evs ++ evs2 ++ [Ev.closeBrowser], fs2, k + 2)
        | (.raisedE, evs2, fs2) => (.raised, evs ++ evs2, fs2, k + 2)
        | (.failed, evs2, fs2) =>
          match tryCandidates env ext rest (k + 2) fs2 with
          | (res, evs3, fs3, k3) => (res, evs ++ evs2 ++ evs3, fs3, k3)

/-- Everything outside the script's own control flow that a run consumes:
whether `page.goto` succeeds, the rendered page, the subprocess outcomes
and the destination file state at the start. -/
structure BrowserEnv where
  gotoOk : Bool
  page : Page
  outcomes : Nat → Outcome
  initFile : Option Nat

/-- `download_with_browser` from the navigation on (lines 165-273): a
failed navigation is caught by the outer handler, which closes the browser;
an empty filtered candidate list closes the browser and fails (lines
201-204); otherwise the candidate loop runs, the browser being closed on
acceptance, on exhaustion (line 266) and in the outer handler when a yt-dlp
invocation raises (lines 270-273).  Returns the success flag, the event
trace and the final destination file. -/
def download_with_browser (env : BrowserEnv) (url filename : String) :
    Bool × List Ev × Option Nat :=
  if !env.gotoOk then (false, [Ev.closeBrowser], env.initFile)
  else
    if (extractionResult env.page url).isEmpty then (false, [Ev.closeBrowser], env.initFile)
    else
      match tryCandidates env.outcomes (splitextExtLower filename)
        (extractionResult env.page url) 0 env.initFile with
      | (.success, evs, fs, _) => (true, evs, fs)
      | (.exhausted, evs, fs, _) => (false, evs ++ [Ev.closeBrowser], fs)
      | (.raised, evs, fs, _) => (false, evs ++ [Ev.closeBrowser], fs)

/-- `main` (lines 275-286): usage exit 1 with fewer than two arguments
after the program name, otherwise exit 0 exactly when the run succeeds. -/
def mainExitCode (env : BrowserEnv) (argv : List String) : Nat :=
  if argv.length < 3 then 1
  else
    match argv with
    | _ :: url :: filename :: _ =>
      if (download_with_browser env url filename).1 then 0 else 1
    | _ => 1

/-- Projection of the call events of a trace: backend, URL, timeout. -/
def callsOf : List Ev → List (String × String × Nat)
  | [] => []
  | Ev.call b u t _ :: rest => (b, u, t) :: callsOf rest
  | _ :: rest => callsOf rest

/-- The scan that produced a source kind, numbered in the priority order of
the extractor's scans. -/
def scanRank (t : String) : Nat :=
  if t == "video" || t == "video_effective" then 0
  else if t == "source" then 1
  else if t == "data-src" then 2
  else if t == "script" then 3
  else if t == "json" then 4
  else 5

/-- The source kinds the extractor can emit. -/
def SRC_KINDS : List String :=
  ["video", "video_effective", "source", "data-src", "script", "json", "download_link"]

/-- Acceptance condition of an aria2c attempt (line 238), as a function of
the invocation's outcome and the destination extension. -/
def ariaAccepts (ext : String) : Outcome → Bool
  | .ran rc (some size) =>
    decide (rc = 0) && decide (MIN_VIDEO_SIZE ≤ size ∨ ext ∈ VIDEO_EXTENSIONS)
  | _ => false

/-- Acceptance condition of a yt-dlp attempt (lines 258-261). -/
def ytAccepts : Outcome → Bool
  | .ran rc (some size) => decide (rc = 0) && decide (MIN_VIDEO_SIZE ≤ size)
  | _ => false

/-! Helper lemmas about deduplication (source lines 78-84). -/

theorem dedupe_sublist (l : List (String × String)) (seen : List String) :
    List.Sublist (dedupe l seen) l := by
  induction l generalizing seen with
  | nil => exact List.Sublist.refl _
  | cons p rest ih =>
    obtain ⟨t, u⟩ := p
    by_cases h : u ∈ seen
    · rw [dedupe, if_pos h]
      exact List.Sublist.cons _ (ih seen)
    · rw [dedupe, if_neg h]
      exact List.Sublist.cons₂ _ (ih (u :: seen))

theorem dedupe_not_seen (l : List (String × String)) (seen : List String) :
    ∀ q ∈ dedupe l seen, q.2 ∉ seen := by
  induction l generalizing seen with
  | nil => intro q hq; simp [dedupe] at hq
  | cons p rest ih =>
    obtain ⟨t, u⟩ := p
    intro q hq
    by_cases h : u ∈ seen
    · rw [dedupe, if_pos h] at hq
      exact ih seen q hq
    · rw [dedupe, if_neg h] at hq
      rcases List.mem_cons.1 hq with h1 | h1
      · subst h1; exact h
      · intro hc
        exact ih (u :: seen) q h1 (List.mem_cons_of_mem u hc)

theorem dedupe_snd_nodup (l : List (String × String)) (seen : List String) :
    ((dedupe l seen).map Prod.snd).Nodup := by
  induction l generalizing seen with
  | nil => simp [dedupe]
  | cons p rest ih =>
    obtain ⟨t, u⟩ := p
    by_cases h : u ∈ seen
    · rw [dedupe, if_pos h]; exact ih seen
    · rw [dedupe, if_neg h]
      refine List.Nodup.cons ?_ (ih (u :: seen))
      intro hu
      obtain ⟨q, hq, hq2⟩ := List.mem_map.1 hu
      have := dedupe_not_seen rest (u :: seen) q hq
      exact this (hq2 ▸ List.mem_cons_self u seen)

theorem dedupe_find (l : List (String × String)) (seen : List String) :
    ∀ q ∈ dedupe l seen, l.find? (fun r => r.2 == q.2) = some q := by
  induction l generalizing seen with
  | nil => intro q hq; simp [dedupe] at hq
  | cons p rest ih =>
    obtain ⟨t, u⟩ := p
    intro q hq
    by_cases h : u ∈ seen
    · rw [dedupe, if_pos h] at hq
      have hfind := ih seen q hq
      have hne : q.2 ≠ u := by
        intro hc
        exact dedupe_not_seen rest seen q hq (hc ▸ h)
      rw [List.find?_cons_of_neg, hfind]
      simp [hne.symm]
    · rw [dedupe, if_neg h] at hq
      rcases List.mem_cons.1 hq with h1 | h1
      · subst h1
        rw [List.find?_cons_of_pos]
        simp
      · have hfind := ih (u :: seen) q h1
        have hne : q.2 ≠ u := by
          intro hc
          exact dedupe_not_seen rest (u :: seen) q h1 (hc ▸ List.mem_cons_self u seen)
        rw [List.find?_cons_of_neg, hfind]
        simp [hne.symm]

theorem dedupe_covers (l : List (String × String)) (seen : List String) :
    ∀ p ∈ l, p.2 ∉ seen → ∃ q ∈ dedupe l seen, q.2 = p.2 := by
  induction l generalizing seen with
  | nil => intro p hp; simp at hp
  | cons a rest ih =>
    obtain ⟨t, u⟩ := a
    intro p hp hns
    by_cases h : u ∈ seen
    · rw [dedupe, if_pos h]
      rcases List.mem_cons.1 hp with h1 | h1
      · exact absurd (h1 ▸ h : p.2 ∈ seen) hns
      · exact ih seen p h1 hns
    · rw [dedupe, if_neg h]
      rcases List.mem_cons.1 hp with h1 | h1
      · exact ⟨(t, u), List.mem_cons_self _ _, by rw [h1]⟩
      · by_cases he : p.2 = u
        · exact ⟨(t, u), List.mem_cons_self _ _, he.symm⟩
        · obtain ⟨q, hq, hq2⟩ := ih (u :: seen) p h1 (by
            intro hc
            rcases List.mem_cons.1 hc with h2 | h2
            · exact he h2
            · exact hns h2)
          exact ⟨q, List.mem_cons_of_mem _ hq, hq2⟩

/-! Helper lemmas about the guarded singleton shapes of the scan bodies. -/

theorem mem_ite_singleton {α : Type} {c : Prop} [Decidable c] {p x : α}
    (h : p ∈ if c then [x] else ([] : List α)) : p = x ∧ c := by
  by_cases hc : c
  · rw [if_pos hc] at h
    exact ⟨List.mem_singleton.1 h, hc⟩
  · rw [if_neg hc] at h
    exact absurd h (List.not_mem_nil p)

theorem ite_some_eq {α : Type} {c : Prop} [Decidable c] {x p : α}
    (h : (if c then some x else none) = some p) : p = x ∧ c := by
  by_cases hc : c
  · rw [if_pos hc] at h
    exact ⟨(Option.some_inj.1 h).symm, hc⟩
  · rw [if_neg hc] at h
    exact absurd h (by simp)

/-! Helper lemmas about the character-level string functions. -/

theorem listStartsWith_nil (l : List Char) : listStartsWith l [] = true := by
  cases l <;> rfl

theorem listStartsWith_append {l p : List Char} (h : listStartsWith l p = true)
    (l2 : List Char) : listStartsWith (l ++ l2) p = true := by
  induction p generalizing l with
  | nil => exact listStartsWith_nil _
  | cons c cs ih =>
    cases l with
    | nil => simp [listStartsWith] at h
    | cons a as =>
      simp only [List.cons_append, listStartsWith, Bool.and_eq_true] at h ⊢
      exact ⟨h.1, ih h.2⟩

theorem http_no_blob {l : List Char} (h : listStartsWith l "http".data = true) :
    listStartsWith l "blob:".data = false := by
  rw [show "http".data = ['h', 't', 't', 'p'] from rfl] at h
  rw [show "blob:".data = ['b', 'l', 'o', 'b', ':'] from rfl]
  cases l with
  | nil => simp [listStartsWith] at h
  | cons c cs =>
    simp only [listStartsWith, Bool.and_eq_true, beq_iff_eq] at h
    obtain ⟨rfl, -⟩ := h
    rw [listStartsWith, show (('h' : Char) == 'b') = false from rfl, Bool.false_and]

theorem dropWhile_eq_self_of {α : Type} {p : α → Bool} {l : List α}
    (h : ∀ c ∈ l, p c = false) : l.dropWhile p = l := by
  cases l with
  | nil => rfl
  | cons c cs => simp [List.dropWhile_cons, h c (List.mem_cons_self c cs)]

theorem stripQuotes_eq_self {s : String} (h : ∀ c ∈ s.data, isQuoteChar c = false) :
    stripQuotes s = s := by
  have h1 : s.data.dropWhile isQuoteChar = s.data := dropWhile_eq_self_of h
  have h2 : s.data.reverse.dropWhile isQuoteChar = s.data.reverse :=
    dropWhile_eq_self_of (fun c hc => h c (List.mem_reverse.1 hc))
  unfold stripQuotes
  simp only [h1, h2, List.reverse_reverse]

/-! Shape lemmas for the media-URL pattern matches: every captured group is
quote-free and starts with `http`. -/

theorem matchHttpScheme_shape {l pre r : List Char}
    (h : matchHttpScheme l = some (pre, r)) :
    pre = "https://".data ∨ pre = "http://".data := by
  unfold matchHttpScheme at h
  cases h1 : dropLit l "https://".data with
  | some r1 =>
    rw [h1] at h
    exact Or.inl (Prod.mk.injEq _ _ _ _ ▸ (Option.some_inj.1 h)).1.symm
  | none =>
    rw [h1] at h
    cases h2 : dropLit l "http://".data with
    | some r2 =>
      rw [h2] at h
      exact Or.inr (Prod.mk.injEq _ _ _ _ ▸ (Option.some_inj.1 h)).1.symm
    | none => rw [h2] at h; cases h

theorem matchScriptAt_group {l g r : List Char}
    (h : matchScriptAt l = some (g, r)) :
    (∀ c ∈ g, isQuoteChar c = false) ∧ listStartsWith g "http".data = true := by
  cases l with
  | nil => cases h
  | cons c cs =>
    simp only [matchScriptAt] at h
    by_cases hq : isQuoteChar c = true
    · rw [if_pos hq] at h
      cases hm : matchHttpScheme cs with
      | none => rw [hm] at h; cases h
      | some pr =>
        obtain ⟨pre, rr⟩ := pr
        rw [hm] at h
        dsimp only at h
        cases hd : rr.drop (rr.takeWhile (fun ch => !(isQuoteChar ch))).length with
        | nil => rw [hd] at h; cases h
        | cons q rest2 =>
          rw [hd] at h
          dsimp only at h
          by_cases hc : (isQuoteChar q && hasMediaExtInside
              (rr.takeWhile (fun ch => !(isQuoteChar ch)))) = true
          · rw [if_pos hc] at h
            have hg : pre ++ rr.takeWhile (fun ch => !(isQuoteChar ch)) = g :=
              congrArg Prod.fst (Option.some_inj.1 h)
            subst hg
            have hpre := matchHttpScheme_shape hm
            constructor
            · intro ch hch
              rcases List.mem_append.1 hch with h1 | h1
              · rcases hpre with hp | hp <;> subst hp
                · exact (by decide : ∀ x ∈ "https://".data, isQuoteChar x = false) ch h1
                · exact (by decide : ∀ x ∈ "http://".data, isQuoteChar x = false) ch h1
              · have := List.mem_takeWhile_imp h1
                simpa using this
            · refine listStartsWith_append ?_ _
              rcases hpre with hp | hp <;> subst hp <;> decide
          · rw [if_neg hc] at h; cases h
    · rw [if_neg hq] at h; cases h

theorem findallScriptAux_mem {fuel : Nat} {l : List Char} {u : String}
    (h : u ∈ findallScriptAux fuel l) :
    (∀ c ∈ u.data, isQuoteChar c = false) ∧ listStartsWith u.data "http".data = true := by
  induction fuel generalizing l with
  | zero => simp [findallScriptAux] at h
  | succ n ih =>
    cases l with
    | nil => simp [findallScriptAux] at h
    | cons c cs =>
      rw [findallScriptAux] at h
      cases hm : matchScriptAt (c :: cs) with
      | none => rw [hm] at h; exact ih h
      | some pr =>
        obtain ⟨g, rest⟩ := pr
        rw [hm] at h
        rcases List.mem_cons.1 h with h1 | h1
        · subst h1
          exact matchScriptAt_group hm
        · exact ih h1

theorem findallScript_mem {content : String} {u : String}
    (h : u ∈ findallScript content) :
    (∀ c ∈ u.data, isQuoteChar c = false) ∧ listStartsWith u.data "http".data = true :=
  findallScriptAux_mem h

/-! Membership lemmas for the six scans: which source kinds each can emit
and which guards its candidates passed. -/

theorem mem_videoElCands {p : String × String} {v : VideoEl} (h : p ∈ videoElCands v) :
    ∃ s, (p = ("video", s) ∨ p = ("video_effective", s)) ∧
      strStartsWith s "blob:" = false := by
  unfold videoElCands at h
  rcases List.mem_append.1 h with h1 | h1
  · cases hv : v.src with
    | none => rw [hv] at h1; exact absurd h1 (List.not_mem_nil p)
    | some s =>
      rw [hv] at h1
      dsimp only at h1
      obtain ⟨hp, hc⟩ := mem_ite_singleton h1
      rw [Bool.and_eq_true] at hc
      exact ⟨s, Or.inl hp, by simpa using hc.2⟩
  · cases hv : v.evalSrc with
    | none => rw [hv] at h1; exact absurd h1 (List.not_mem_nil p)
    | some e =>
      rw [hv] at h1
      dsimp only at h1
      obtain ⟨hp, hc⟩ := mem_ite_singleton h1
      rw [Bool.and_eq_true] at hc
      exact ⟨e, Or.inr hp, by simpa using hc.2⟩

theorem mem_sourceElCands {p : String × String} {s : SourceEl} (h : p ∈ sourceElCands s) :
    ∃ u, p = ("source", u) ∧ strStartsWith u "blob:" = false := by
  unfold sourceElCands at h
  cases hv : s.src with
  | none => rw [hv] at h; exact absurd h (List.not_mem_nil p)
  | some u =>
    rw [hv] at h
    dsimp only at h
    obtain ⟨hp, hc⟩ := mem_ite_singleton h
    rw [Bool.and_eq_true] at hc
    exact ⟨u, hp, by simpa using hc.2⟩

theorem mem_lazyElCands {p : String × String} {e : LazyEl} (h : p ∈ lazyElCands e) :
    ∃ u, p = ("data-src", u) ∧ strStartsWith u "blob:" = false := by
  unfold lazyElCands at h
  cases hv : e.dataSrc with
  | none => rw [hv] at h; exact absurd h (List.not_mem_nil p)
  | some u =>
    rw [hv] at h
    dsimp only at h
    obtain ⟨hp, hc⟩ := mem_ite_singleton h
    rw [Bool.and_eq_true] at hc
    exact ⟨u, hp, by simpa using hc.2⟩

theorem mem_scriptElCands {p : String × String} {s : ScriptEl} (h : p ∈ scriptElCands s) :
    p.1 = "script" ∧ strStartsWith p.2 "blob:" = false := by
  unfold scriptElCands at h
  obtain ⟨u, hu, hf⟩ := List.mem_filterMap.1 h
  obtain ⟨hp, hc⟩ := ite_some_eq hf
  subst hp
  refine ⟨rfl, ?_⟩
  have hsh := findallScript_mem hu
  show strStartsWith (stripQuotes u) "blob:" = false
  rw [stripQuotes_eq_self hsh.1]
  simpa using hc

theorem mem_jsonElCands {p : String × String} {s : ScriptEl} (h : p ∈ jsonElCands s) :
    p.1 = "json" ∧ strStartsWith p.2 "blob:" = false := by
  unfold jsonElCands at h
  obtain ⟨u, hu, hf⟩ := List.mem_filterMap.1 h
  obtain ⟨hp, hc⟩ := ite_some_eq hf
  subst hp
  exact ⟨rfl, by simpa using hc⟩

theorem mem_linkElCands {p : String × String} {url : String} {l : LinkEl}
    (h : p ∈ linkElCands url l) : p.1 = "download_link" := by
  unfold linkElCands at h
  cases hv : l.href with
  | none => rw [hv] at h; exact absurd h (List.not_mem_nil p)
  | some u =>
    rw [hv] at h
    dsimp only at h
    obtain ⟨hp, -⟩ := mem_ite_singleton h
    rw [hp]

/-! Rank and kind of each scan's candidates. -/

theorem videoCandidates_rank {p : String × String} {vs : List VideoEl}
    (h : p ∈ videoCandidates vs) :
    scanRank p.1 = 0 ∧ p.1 ∈ SRC_KINDS ∧ strStartsWith p.2 "blob:" = false := by
  obtain ⟨v, -, hp⟩ := List.mem_flatMap.1 h
  obtain ⟨s, hps, hb⟩ := mem_videoElCands hp
  rcases hps with h1 | h1 <;> subst h1
  · exact ⟨(by decide : scanRank "video" = 0),
      (by decide : ("video" : String) ∈ SRC_KINDS), hb⟩
  · exact ⟨(by decide : scanRank "video_effective" = 0),
      (by decide : ("video_effective" : String) ∈ SRC_KINDS), hb⟩

theorem sourceBlock_rank {p : String × String} {ss : List SourceEl}
    (h : p ∈ ss.flatMap sourceElCands) :
    scanRank p.1 = 1 ∧ p.1 ∈ SRC_KINDS ∧ strStartsWith p.2 "blob:" = false := by
  obtain ⟨s, -, hp⟩ := List.mem_flatMap.1 h
  obtain ⟨u, hpu, hb⟩ := mem_sourceElCands hp
  subst hpu
  exact ⟨(by decide : scanRank "source" = 1),
    (by decide : ("source" : String) ∈ SRC_KINDS), hb⟩

theorem lazyBlock_rank {p : String × String} {es : List LazyEl}
    (h : p ∈ es.flatMap lazyElCands) :
    scanRank p.1 = 2 ∧ p.1 ∈ SRC_KINDS ∧ strStartsWith p.2 "blob:" = false := by
  obtain ⟨e, -, hp⟩ := List.mem_flatMap.1 h
  obtain ⟨u, hpu, hb⟩ := mem_lazyElCands hp
  subst hpu
  exact ⟨(by decide : scanRank "data-src" = 2),
    (by decide : ("data-src" : String) ∈ SRC_KINDS), hb⟩

theorem scriptBlock_rank {p : String × String} {ss : List ScriptEl}
    (h : p ∈ ss.flatMap scriptElCands) :
    scanRank p.1 = 3 ∧ p.1 ∈ SRC_KINDS ∧ strStartsWith p.2 "blob:" = false := by
  obtain ⟨s, -, hp⟩ := List.mem_flatMap.1 h
  obtain ⟨ht, hb⟩ := mem_scriptElCands hp
  rw [ht]
  exact ⟨by decide, by decide, hb⟩

theorem jsonBlock_rank {p : String × String} {ss : List ScriptEl}
    (h : p ∈ ss.flatMap jsonElCands) :
    scanRank p.1 = 4 ∧ p.1 ∈ SRC_KINDS ∧ strStartsWith p.2 "blob:" = false := by
  obtain ⟨s, -, hp⟩ := List.mem_flatMap.1 h
  obtain ⟨ht, hb⟩ := mem_jsonElCands hp
  rw [ht]
  exact ⟨by decide, by decide, hb⟩

theorem linkBlock_rank {p : String × String} {url : String} {ls : List LinkEl}
    (h : p ∈ ls.flatMap (linkElCands url)) :
    scanRank p.1 = 5 ∧ p.1 ∈ SRC_KINDS := by
  obtain ⟨l, -, hp⟩ := List.mem_flatMap.1 h
  rw [mem_linkElCands hp]
  exact ⟨by decide, by decide⟩

/-! Assembling the priority order of the whole candidate list. -/

theorem pairwise_rank_const {l : List (String × String)} {k : Nat}
    (h : ∀ p ∈ l, scanRank p.1 = k) :
    l.Pairwise (fun p q => scanRank p.1 ≤ scanRank q.1) := by
  induction l with
  | nil => exact List.Pairwise.nil
  | cons a t ih =>
    refine List.Pairwise.cons (fun b hb => ?_)
      (ih fun p hp => h p (List.mem_cons_of_mem a hp))
    rw [h a (List.mem_cons_self a t), h b (List.mem_cons_of_mem a hb)]

theorem pairwise_rank_blocks {A B : List (String × String)} {ka : Nat}
    (hA : ∀ p ∈ A, scanRank p.1 = ka)
    (hB : B.Pairwise (fun p q => scanRank p.1 ≤ scanRank q.1))
    (hAB : ∀ q ∈ B, ka ≤ scanRank q.1) :
    (A ++ B).Pairwise (fun p q => scanRank p.1 ≤ scanRank q.1) := by
  refine List.pairwise_append.2 ⟨pairwise_rank_const hA, hB, ?_⟩
  intro a ha b hb
  rw [hA a ha]
  exact hAB b hb

theorem rawCandidates_pairwise (page : Page) (url : String) :
    (rawCandidates page url).Pairwise (fun p q => scanRank p.1 ≤ scanRank q.1) := by
  unfold rawCandidates
  simp only [List.append_assoc]
  refine pairwise_rank_blocks (fun p hp => (videoCandidates_rank hp).1) ?_ ?_
  · refine pairwise_rank_blocks (fun p hp => (sourceBlock_rank hp).1) ?_ ?_
    · refine pairwise_rank_blocks (fun p hp => (lazyBlock_rank hp).1) ?_ ?_
      · refine pairwise_rank_blocks (fun p hp => (scriptBlock_rank hp).1) ?_ ?_
        · refine pairwise_rank_blocks (fun p hp => (jsonBlock_rank hp).1)
            (pairwise_rank_const (fun p hp => (linkBlock_rank hp).1)) ?_
          intro q hq
          rw [(linkBlock_rank hq).1]
          omega
        · intro q hq
          rcases List.mem_append.1 hq with h1 | h1
          · rw [(jsonBlock_rank h1).1]; omega
          · rw [(linkBlock_rank h1).1]; omega
      · intro q hq
        rcases List.mem_append.1 hq with h1 | hq
        · rw [(scriptBlock_rank h1).1]; omega
        rcases List.mem_append.1 hq with h1 | h1
        · rw [(jsonBlock_rank h1).1]; omega
        · rw [(linkBlock_rank h1).1]; omega
    · intro q hq
      rcases List.mem_append.1 hq with h1 | hq
      · rw [(lazyBlock_rank h1).1]; omega
      rcases List.mem_append.1 hq with h1 | hq
      · rw [(scriptBlock_rank h1).1]; omega
      rcases List.mem_append.1 hq with h1 | h1
      · rw [(jsonBlock_rank h1).1]; omega
      · rw [(linkBlock_rank h1).1]; omega
  · intro q hq
    rcases List.mem_append.1 hq with h1 | hq
    · rw [(sourceBlock_rank h1).1]; omega
    rcases List.mem_append.1 hq with h1 | hq
    · rw [(lazyBlock_rank h1).1]; omega
    rcases List.mem_append.1 hq with h1 | hq
    · rw [(scriptBlock_rank h1).1]; omega
    rcases List.mem_append.1 hq with h1 | h1
    · rw [(jsonBlock_rank h1).1]; omega
    · rw [(linkBlock_rank h1).1]; omega

/-- Every raw candidate carries one of the seven source kinds, and every
raw candidate outside the anchor-link scan passed a blob filter. -/
theorem mem_rawCandidates_parts {p : String × String} {page : Page} {url : String}
    (h : p ∈ rawCandidates page url) :
    p.1 ∈ SRC_KINDS ∧ (p.1 ≠ "download_link" → strStartsWith p.2 "blob:" = false) := by
  unfold rawCandidates at h
  simp only [List.append_assoc] at h
  rcases List.mem_append.1 h with h1 | h
  · obtain ⟨-, hk, hb⟩ := videoCandidates_rank h1
    exact ⟨hk, fun _ => hb⟩
  rcases List.mem_append.1 h with h1 | h
  · obtain ⟨-, hk, hb⟩ := sourceBlock_rank h1
    exact ⟨hk, fun _ => hb⟩
  rcases List.mem_append.1 h with h1 | h
  · obtain ⟨-, hk, hb⟩ := lazyBlock_rank h1
    exact ⟨hk, fun _ => hb⟩
  rcases List.mem_append.1 h with h1 | h
  · obtain ⟨-, hk, hb⟩ := scriptBlock_rank h1
    exact ⟨hk, fun _ => hb⟩
  rcases List.mem_append.1 h with h1 | h1
  · obtain ⟨-, hk, hb⟩ := jsonBlock_rank h1
    exact ⟨hk, fun _ => hb⟩
  · obtain ⟨l, -, hp⟩ := List.mem_flatMap.1 h1
    have ht := mem_linkElCands hp
    exact ⟨ht ▸ (by decide), fun hne => absurd ht hne⟩

theorem flatMap_eq_nil_of {α β : Type} {l : List α} {f : α → List β}
    (h : ∀ a ∈ l, f a = []) : l.flatMap f = [] := by
  induction l with
  | nil => rfl
  | cons a t ih =>
    rw [List.flatMap_cons, h a (List.mem_cons_self a t), List.nil_append]
    exact ih fun b hb => h b (List.mem_cons_of_mem a hb)

/-- C1: every candidate in the ExtractionResult carries the source kind of
one of the extractor's scans, and candidates found by an earlier scan
precede candidates found by a later scan.  (The claim's embed/iframe and
page-global scans contribute no candidates: the script performs no
embed/iframe query and never calls `try_get_video_from_api`, so the
remaining kinds cover every candidate.) -/
theorem c1_result_scan_kinds_and_priority_order (page : Page) (url : String) :
    (∀ p ∈ extractionResult page url, p.1 ∈ SRC_KINDS) ∧
    (extractionResult page url).Pairwise (fun p q => scanRank p.1 ≤ scanRank q.1) := by
  have hsub : List.Sublist (extractionResult page url) (rawCandidates page url) :=
    (List.filter_sublist _).trans (dedupe_sublist _ _)
  constructor
  · intro p hp
    exact (mem_rawCandidates_parts (hsub.subset hp)).1
  · exact (rawCandidates_pairwise page url).sublist hsub

/-- Witness for C1: a concrete page's single candidate carries a scan kind. -/
theorem c1_result_scan_kinds_and_priority_order_witness :
    (("video", "http://e/v.mp4") : String × String).1 ∈ SRC_KINDS :=
  (c1_result_scan_kinds_and_priority_order
      ⟨[⟨some "http://e/v.mp4", none⟩], [], [], [], [], []⟩ "http://e/").1
    ("video", "http://e/v.mp4") (by decide)

/-- C6: the deduplicated candidate list repeats no URL, is a subsequence of
the raw candidate list (first-seen occurrences keep their original
position), every raw URL is represented, and every kept entry is exactly
the first raw entry with its URL (so it carries the kind of the earliest
scan that found the URL). -/
theorem c6_dedup_first_seen (page : Page) (url : String) :
    ((find_video_urls_on_page page url).map Prod.snd).Nodup ∧
    List.Sublist (find_video_urls_on_page page url) (rawCandidates page url) ∧
    (∀ p ∈ rawCandidates page url, ∃ q ∈ find_video_urls_on_page page url, q.2 = p.2) ∧
    (∀ q ∈ find_video_urls_on_page page url,
      (rawCandidates page url).find? (fun r => r.2 == q.2) = some q) := by
  refine ⟨dedupe_snd_nodup _ _, dedupe_sublist _ _, ?_, dedupe_find _ _⟩
  intro p hp
  exact dedupe_covers _ [] p hp (by simp)

/-- Witness for C6 at a concrete page. -/
theorem c6_dedup_first_seen_witness :
    (rawCandidates ⟨[⟨some "http://e/v.mp4", none⟩], [], [], [], [], []⟩ "http://e/").find?
        (fun r => r.2 == (("video", "http://e/v.mp4") : String × String).2) =
      some ("video", "http://e/v.mp4") :=
  (c6_dedup_first_seen ⟨[⟨some "http://e/v.mp4", none⟩], [], [], [], [], []⟩
      "http://e/").2.2.2 ("video", "http://e/v.mp4") (by decide)

/-- C2 counterexample: an anchor whose `href` is a blob reference passes
the anchor scan (its text contains `/download/`), `urljoin` returns it
unchanged, and no blob filter is applied on that scan's path, so the
ExtractionResult contains a `blob:` URL, contradicting the claim. -/
theorem c2_blob_anchor_counterexample :
    extractionResult ⟨[], [], [], [], [], [⟨some "blob:https://site/download/video"⟩]⟩
        "https://site/page" =
      [("download_link", "blob:https://site/download/video")] ∧
    strStartsWith "blob:https://site/download/video" "blob:" = true := by decide

/-- C2 amended: every candidate in the ExtractionResult avoids the
image/thumbnail denylist, and every candidate of a scan other than the
anchor-link scan is not a blob reference; an anchor-link candidate may be a
blob reference (the dispatcher skips it before any download attempt). -/
theorem c2_no_image_and_no_blob_outside_anchor (page : Page) (url : String) :
    ∀ p ∈ extractionResult page url,
      denylisted p.2 = false ∧
      (p.1 ≠ "download_link" → strStartsWith p.2 "blob:" = false) := by
  intro p hp
  have hfil := List.mem_filter.1 hp
  constructor
  · simpa using hfil.2
  · intro hne
    have hraw : p ∈ rawCandidates page url := (dedupe_sublist _ _).subset hfil.1
    exact (mem_rawCandidates_parts hraw).2 hne

/-- Witness for the amended C2 at a concrete page and candidate. -/
theorem c2_no_image_and_no_blob_outside_anchor_witness :
    denylisted (("video", "http://e/v.mp4") : String × String).2 = false ∧
    ((("video", "http://e/v.mp4") : String × String).1 ≠ "download_link" →
      strStartsWith (("video", "http://e/v.mp4") : String × String).2 "blob:" = false) :=
  c2_no_image_and_no_blob_outside_anchor
    ⟨[⟨some "http://e/v.mp4", none⟩], [], [], [], [], []⟩ "http://e/"
    ("video", "http://e/v.mp4") (by decide)

/-- C7 counterexample: a page whose only candidate source is one `<video>`
element with a `src` attribute, where that attribute is a blob reference:
the claim demands an ExtractionResult with exactly that URL, but the
extractor's blob filter leaves the result empty. -/
theorem c7_blob_src_counterexample :
    extractionResult ⟨[⟨some "blob:http://s/v.mp4", none⟩], [], [], [], [], []⟩
      "http://s/p" = [] := by decide

/-- C7 amended: for a page with exactly one `<video>` element carrying a
src attribute and no other candidate sources, extraction returns exactly
that URL, provided the src value is truthy, not a blob reference, not
matching the image denylist, and the element's evaluated effective src
fails, is empty or equals the attribute. -/
theorem c7_single_video_extraction (page : Page) (url : String) (v : VideoEl) (s : String)
    (hv : page.videos = [v]) (hsrc : v.src = some s) (hne : s ≠ "")
    (hblob : strStartsWith s "blob:" = false) (hden : denylisted s = false)
    (heff : v.evalSrc = none ∨ v.evalSrc = some "" ∨ v.evalSrc = some s)
    (h2 : page.videoSources = []) (h3 : page.lazyEls = [])
    (h4 : ∀ sc ∈ page.scripts, findallScript sc.innerHtml = [])
    (h5 : ∀ sc ∈ page.jsonScripts, findallJson sc.innerHtml = [])
    (h6 : ∀ l ∈ page.anchorLinks, ∀ hr, l.href = some hr →
      hr = "" ∨ (LINK_KEYWORDS.any fun x => strContains (strLower hr) x) = false) :
    extractionResult page url = [("video", s)] := by
  have hvc : videoElCands v = [("video", s)] := by
    rcases heff with he | he | he <;>
      simp [videoElCands, hsrc, he, hne, hblob]
  have hsrcB : page.videoSources.flatMap sourceElCands = [] := by rw [h2]; rfl
  have hlazyB : page.lazyEls.flatMap lazyElCands = [] := by rw [h3]; rfl
  have hscriptB : page.scripts.flatMap scriptElCands = [] :=
    flatMap_eq_nil_of fun sc hsc => by simp [scriptElCands, h4 sc hsc]
  have hjsonB : page.jsonScripts.flatMap jsonElCands = [] :=
    flatMap_eq_nil_of fun sc hsc => by simp [jsonElCands, h5 sc hsc]
  have hlinkB : (page.anchorLinks.take 10).flatMap (linkElCands url) = [] := by
    refine flatMap_eq_nil_of fun l hl => ?_
    cases hh : l.href with
    | none => simp [linkElCands, hh]
    | some hstr =>
      rcases h6 l (List.take_subset 10 page.anchorLinks hl) hstr hh with he | hf
      · subst he; simp [linkElCands, hh]
      · simp [linkElCands, hh, hf]
  have hvideoB : videoCandidates page.videos = [("video", s)] := by
    rw [hv]
    simp [videoCandidates, hvc]
  have hraw : rawCandidates page url = [("video", s)] := by
    unfold rawCandidates
    rw [hvideoB, hsrcB, hlazyB, hscriptB, hjsonB, hlinkB]
    rfl
  unfold extractionResult find_video_urls_on_page
  rw [hraw]
  simp [dedupe, hden]

/-- Witness for the amended C7 at a concrete page. -/
theorem c7_single_video_extraction_witness :
    extractionResult ⟨[⟨some "http://w7/video.mp4", none⟩], [], [], [], [], []⟩ "http://w7/"
      = [("video", "http://w7/video.mp4")] :=
  c7_single_video_extraction ⟨[⟨some "http://w7/video.mp4", none⟩], [], [], [], [], []⟩
    "http://w7/" ⟨some "http://w7/video.mp4", none⟩ "http://w7/video.mp4"
    rfl rfl (by decide) (by decide) (by decide) (Or.inl rfl) rfl rfl
    (by simp) (by simp) (by simp)

/-! Helper lemmas about the dispatcher's two backend attempts. -/

theorem callsOf_append (a b : List Ev) : callsOf (a ++ b) = callsOf a ++ callsOf b := by
  induction a with
  | nil => rfl
  | cons e rest ih => cases e <;> simp [callsOf, ih]

theorem ariaStep_calls (o : Outcome) (ext vurl : String) (fs : Option Nat) :
    callsOf (ariaStep o ext vurl fs).2.1 = [("aria2c", vurl, 600)] := by
  cases o with
  | raised f => rfl
  | ran rc f =>
    by_cases h : rc = 0
    · cases f with
      | none => simp [ariaStep, h, callsOf]
      | some size =>
        by_cases h2 : MIN_VIDEO_SIZE ≤ size ∨ ext ∈ VIDEO_EXTENSIONS <;>
          simp [ariaStep, h, h2, callsOf]
    · simp [ariaStep, h, callsOf]

theorem ariaStep_fst (o : Outcome) (ext vurl : String) (fs : Option Nat) :
    (ariaStep o ext vurl fs).1 = ariaAccepts ext o := by
  cases o with
  | raised f => rfl
  | ran rc f =>
    cases f with
    | none => by_cases h : rc = 0 <;> simp [ariaStep, ariaAccepts, h]
    | some size =>
      by_cases h : rc = 0 <;>
        by_cases h2 : MIN_VIDEO_SIZE ≤ size ∨ ext ∈ VIDEO_EXTENSIONS <;>
          simp [ariaStep, ariaAccepts, h, h2]

theorem ariaStep_accept_eq {ext : String} {o : Outcome} (h : ariaAccepts ext o = true)
    (vurl : String) (fs : Option Nat) :
    ariaStep o ext vurl fs = (true, [Ev.call "aria2c" vurl 600 fs], fileOf o) := by
  cases o with
  | raised f => simp [ariaAccepts] at h
  | ran rc f =>
    cases f with
    | none => simp [ariaAccepts] at h
    | some size =>
      simp only [ariaAccepts, Bool.and_eq_true, decide_eq_true_eq] at h
      obtain ⟨h1, h2⟩ := h
      simp [ariaStep, h1, h2, fileOf]

theorem ariaStep_small_eq {size : Nat} {ext : String}
    (hsz : size < MIN_VIDEO_SIZE) (hx : ext ∉ VIDEO_EXTENSIONS)
    (vurl : String) (fs : Option Nat) :
    ariaStep (.ran 0 (some size)) ext vurl fs =
      (false, [Ev.call "aria2c" vurl 600 fs, Ev.removeFile], none) := by
  have hc : ¬(MIN_VIDEO_SIZE ≤ size ∨ ext ∈ VIDEO_EXTENSIONS) := by
    rintro (h | h)
    · omega
    · exact hx h
  simp [ariaStep, hc]

theorem ytStep_evs (o : Outcome) (vurl : String) (fs : Option Nat) :
    (ytStep o vurl fs).2.1 = [Ev.call "yt-dlp" vurl 600 fs] := by
  cases o with
  | raised f => rfl
  | ran rc f =>
    by_cases h : rc = 0
    · cases f with
      | none => simp [ytStep, h]
      | some size => by_cases h2 : MIN_VIDEO_SIZE ≤ size <;> simp [ytStep, h, h2]
    · simp [ytStep, h]

theorem ytStep_accepted_iff (o : Outcome) (vurl : String) (fs : Option Nat) :
    (ytStep o vurl fs).1 = StepRes.accepted ↔ ytAccepts o = true := by
  cases o with
  | raised f => simp [ytStep, ytAccepts]
  | ran rc f =>
    cases f with
    | none => by_cases h : rc = 0 <;> simp [ytStep, ytAccepts, h]
    | some size =>
      by_cases h : rc = 0 <;> by_cases h2 : MIN_VIDEO_SIZE ≤ size <;>
        simp [ytStep, ytAccepts, h, h2]

theorem ytStep_accept_eq {o : Outcome} (h : ytAccepts o = true)
    (vurl : String) (fs : Option Nat) :
    ytStep o vurl fs = (.accepted, [Ev.call "yt-dlp" vurl 600 fs], fileOf o) := by
  cases o with
  | raised f => simp [ytAccepts] at h
  | ran rc f =>
    cases f with
    | none => simp [ytAccepts] at h
    | some size =>
      simp only [ytAccepts, Bool.and_eq_true, decide_eq_true_eq] at h
      obtain ⟨h1, h2⟩ := h
      simp [ytStep, h1, h2, fileOf]

/-! Step equations for the candidate loop. -/

theorem tryCandidates_skip_blob {vurl : String} (h : strStartsWith vurl "blob:" = true)
    (env : Nat → Outcome) (ext t : String) (rest : List (String × String))
    (k : Nat) (fs : Option Nat) :
    tryCandidates env ext ((t, vurl) :: rest) k fs = tryCandidates env ext rest k fs := by
  rw [tryCandidates, if_pos h]

theorem tryCandidates_skip_nonhttp {vurl : String}
    (h1 : strStartsWith vurl "blob:" = false) (h2 : strStartsWith vurl "http" = false)
    (env : Nat → Outcome) (ext t : String) (rest : List (String × String))
    (k : Nat) (fs : Option Nat) :
    tryCandidates env ext ((t, vurl) :: rest) k fs = tryCandidates env ext rest k fs := by
  rw [tryCandidates, if_neg (by simp [h1]), if_pos (by simp [h2])]

theorem tryCandidates_cons_http {vurl : String}
    (h1 : strStartsWith vurl "blob:" = false) (h2 : strStartsWith vurl "http" = true)
    (env : Nat → Outcome) (ext t : String) (rest : List (String × String))
    (k : Nat) (fs : Option Nat) :
    tryCandidates env ext ((t, vurl) :: rest) k fs =
      match ariaStep (env k) ext vurl fs with
      | (true, evs, fs1) => (.success, evs ++ [Ev.closeBrowser], fs1, k + 1)
      | (false, evs, fs1) =>
        match ytStep (env (k + 1)) vurl fs1 with
        | (.accepted, evs2, fs2) => (.success, evs ++ evs2 ++ [Ev.closeBrowser], fs2, k + 2)
        | (.raisedE, evs2, fs2) => (.raised, evs ++ evs2, fs2, k + 2)
        | (.failed, evs2, fs2) =>
          match tryCandidates env ext rest (k + 2) fs2 with
          | (res, evs3, fs3, k3) => (res, evs ++ evs2 ++ evs3, fs3, k3) := by
  rw [tryCandidates, if_neg (by simp [h1]), if_neg (by simp [h2])]

/-! Structural facts about whole runs of the candidate loop. -/

theorem tryCandidates_calls_sublist (env : Nat → Outcome) (ext : String)
    (cands : List (String × String)) (k : Nat) (fs : Option Nat) :
    List.Sublist (callsOf (tryCandidates env ext cands k fs).2.1)
      (cands.flatMap fun c => [("aria2c", c.2, 600), ("yt-dlp", c.2, 600)]) := by
  induction cands generalizing k fs with
  | nil => exact List.nil_sublist _
  | cons c rest ih =>
    obtain ⟨t, vurl⟩ := c
    rw [List.flatMap_cons]
    by_cases hb : strStartsWith vurl "blob:" = true
    · rw [tryCandidates_skip_blob hb]
      exact (ih k fs).trans (List.sublist_append_right _ _)
    · simp only [Bool.not_eq_true] at hb
      by_cases hh : strStartsWith vurl "http" = true
      · rw [tryCandidates_cons_http hb hh]
        rcases hA : ariaStep (env k) ext vurl fs with ⟨b, evs, fs1⟩
        have hbc : callsOf evs = [("aria2c", vurl, 600)] := by
          have hx := ariaStep_calls (env k) ext vurl fs
          rw [hA] at hx
          exact hx
        cases b
        · dsimp only
          rcases hY : ytStep (env (k + 1)) vurl fs1 with ⟨sr, evs2, fs2⟩
          have hyc : callsOf evs2 = [("yt-dlp", vurl, 600)] := by
            have hx := ytStep_evs (env (k + 1)) vurl fs1
            rw [hY] at hx
            have hx2 : evs2 = [Ev.call "yt-dlp" vurl 600 fs1] := hx
            rw [hx2]
            rfl
          cases sr
          · dsimp only
            rw [callsOf_append, callsOf_append, hbc, hyc,
              show callsOf [Ev.closeBrowser] = [] from rfl, List.append_nil]
            exact ((List.nil_sublist _).cons₂ _).cons₂ _
          · dsimp only
            rw [callsOf_append, callsOf_append, hbc, hyc]
            exact List.Sublist.cons₂ _ (List.Sublist.cons₂ _ (ih (k + 2) fs2))
          · dsimp only
            rw [callsOf_append, hbc, hyc]
            exact ((List.nil_sublist _).cons₂ _).cons₂ _
        · dsimp only
          rw [callsOf_append, hbc, show callsOf [Ev.closeBrowser] = [] from rfl,
            List.append_nil]
          exact (List.Sublist.cons _ (List.nil_sublist _)).cons₂ _
      · simp only [Bool.not_eq_true] at hh
        rw [tryCandidates_skip_nonhttp hb hh]
        exact (ih k fs).trans (List.sublist_append_right _ _)

theorem tryCandidates_no_accept {env : Nat → Outcome} {ext : String}
    (h : ∀ j, ariaAccepts ext (env j) = false ∧ ytAccepts (env j) = false)
    (cands : List (String × String)) (k : Nat) (fs : Option Nat) :
    (tryCandidates env ext cands k fs).1 ≠ LoopExit.success := by
  induction cands generalizing k fs with
  | nil => simp [tryCandidates]
  | cons c rest ih =>
    obtain ⟨t, vurl⟩ := c
    by_cases hb : strStartsWith vurl "blob:" = true
    · rw [tryCandidates_skip_blob hb]
      exact ih k fs
    · simp only [Bool.not_eq_true] at hb
      by_cases hh : strStartsWith vurl "http" = true
      · rw [tryCandidates_cons_http hb hh]
        rcases hA : ariaStep (env k) ext vurl fs with ⟨b, evs, fs1⟩
        have hbf : b = false := by
          have hx := ariaStep_fst (env k) ext vurl fs
          rw [hA] at hx
          exact hx.trans (h k).1
        subst hbf
        dsimp only
        rcases hY : ytStep (env (k + 1)) vurl fs1 with ⟨sr, evs2, fs2⟩
        cases sr
        · exfalso
          have hacc : (ytStep (env (k + 1)) vurl fs1).1 = StepRes.accepted := by
            rw [hY]
          have hyt := (ytStep_accepted_iff _ _ _).1 hacc
          rw [(h (k + 1)).2] at hyt
          exact Bool.noConfusion hyt
        · dsimp only
          exact ih (k + 2) fs2
        · dsimp only
          intro hcon
          exact LoopExit.noConfusion hcon
      · simp only [Bool.not_eq_true] at hh
        rw [tryCandidates_skip_nonhttp hb hh]
        exact ih k fs

theorem tryCandidates_success_close {env : Nat → Outcome} {ext : String}
    (cands : List (String × String)) (k : Nat) (fs : Option Nat)
    (h : (tryCandidates env ext cands k fs).1 = LoopExit.success) :
    Ev.closeBrowser ∈ (tryCandidates env ext cands k fs).2.1 := by
  induction cands generalizing k fs with
  | nil => simp [tryCandidates] at h
  | cons c rest ih =>
    obtain ⟨t, vurl⟩ := c
    by_cases hb : strStartsWith vurl "blob:" = true
    · rw [tryCandidates_skip_blob hb] at h ⊢
      exact ih k fs h
    · simp only [Bool.not_eq_true] at hb
      by_cases hh : strStartsWith vurl "http" = true
      · rw [tryCandidates_cons_http hb hh] at h ⊢
        rcases hA : ariaStep (env k) ext vurl fs with ⟨b, evs, fs1⟩
        rw [hA] at h
        cases b
        · dsimp only at h ⊢
          rcases hY : ytStep (env (k + 1)) vurl fs1 with ⟨sr, evs2, fs2⟩
          rw [hY] at h
          cases sr
          · dsimp only
            exact List.mem_append.2 (Or.inr (List.mem_singleton.2 rfl))
          · dsimp only at h ⊢
            exact List.mem_append.2 (Or.inr (ih (k + 2) fs2 h))
          · dsimp only at h
            exact absurd h (by simp)
        · dsimp only
          exact List.mem_append.2 (Or.inr (List.mem_singleton.2 rfl))
      · simp only [Bool.not_eq_true] at hh
        rw [tryCandidates_skip_nonhttp hb hh] at h ⊢
        exact ih k fs h

theorem tryCandidates_calls_http (env : Nat → Outcome) (ext : String)
    (cands : List (String × String)) (k : Nat) (fs : Option Nat) :
    ∀ p ∈ callsOf (tryCandidates env ext cands k fs).2.1,
      strStartsWith p.2.1 "http" = true := by
  induction cands generalizing k fs with
  | nil => intro p hp; simp [tryCandidates, callsOf] at hp
  | cons c rest ih =>
    obtain ⟨t, vurl⟩ := c
    by_cases hb : strStartsWith vurl "blob:" = true
    · rw [tryCandidates_skip_blob hb]
      exact ih k fs
    · simp only [Bool.not_eq_true] at hb
      by_cases hh : strStartsWith vurl "http" = true
      · rw [tryCandidates_cons_http hb hh]
        rcases hA : ariaStep (env k) ext vurl fs with ⟨b, evs, fs1⟩
        have hbc : callsOf evs = [("aria2c", vurl, 600)] := by
          have hx := ariaStep_calls (env k) ext vurl fs
          rw [hA] at hx
          exact hx
        cases b
        · dsimp only
          rcases hY : ytStep (env (k + 1)) vurl fs1 with ⟨sr, evs2, fs2⟩
          have hyc : callsOf evs2 = [("yt-dlp", vurl, 600)] := by
            have hx := ytStep_evs (env (k + 1)) vurl fs1
            rw [hY] at hx
            have hx2 : evs2 = [Ev.call "yt-dlp" vurl 600 fs1] := hx
            rw [hx2]
            rfl
          cases sr
          · dsimp only
            intro p hp
            rw [callsOf_append, callsOf_append, hbc, hyc,
              show callsOf [Ev.closeBrowser] = [] from rfl, List.append_nil] at hp
            rcases List.mem_append.1 hp with hp1 | hp1 <;>
              rw [List.mem_singleton.1 hp1] <;> exact hh
          · dsimp only
            intro p hp
            rw [callsOf_append, callsOf_append, hbc, hyc] at hp
            rcases List.mem_append.1 hp with hp1 | hp1
            · rcases List.mem_append.1 hp1 with hp2 | hp2 <;>
                rw [List.mem_singleton.1 hp2] <;> exact hh
            · exact ih (k + 2) fs2 p hp1
          · dsimp only
            intro p hp
            rw [callsOf_append, hbc, hyc] at hp
            rcases List.mem_append.1 hp with hp1 | hp1 <;>
              rw [List.mem_singleton.1 hp1] <;> exact hh
        · dsimp only
          intro p hp
          rw [callsOf_append, hbc, show callsOf [Ev.closeBrowser] = [] from rfl,
            List.append_nil] at hp
          rw [List.mem_singleton.1 hp]
          exact hh
      · simp only [Bool.not_eq_true] at hh
        rw [tryCandidates_skip_nonhttp hb hh]
        exact ih k fs

/-- C3 counterexample: with destination `clip.mp4` (a known media
extension) and one candidate, aria2c fails and yt-dlp exits 0 leaving an
existing zero-byte file at the destination.  The claim's stopping test
(size over the threshold or a known media extension) holds for that file,
yet the run does not stop with success: the yt-dlp acceptance test ignores
the extension, and the claimed direct-HTTP backend does not exist. -/
theorem c3_extension_acceptance_counterexample :
    splitextExtLower "clip.mp4" ∈ VIDEO_EXTENSIONS ∧
    (tryCandidates (fun j => if j = 0 then Outcome.ran 1 none else Outcome.ran 0 (some 0))
        (splitextExtLower "clip.mp4") [("video", "http://a/v.mp4")] 0 none).1 =
      LoopExit.exhausted ∧
    (tryCandidates (fun j => if j = 0 then Outcome.ran 1 none else Outcome.ran 0 (some 0))
        (splitextExtLower "clip.mp4") [("video", "http://a/v.mp4")] 0 none).2.2.1 =
      some 0 := by decide

/-- C3 amended: the dispatcher has exactly two backends, aria2c then
yt-dlp, invoked at most once each per candidate in that order; an accepted
aria2c attempt (exit 0 and an existing destination file of size at least
1 MiB or with a known media extension) ends the run successfully at once,
as does an accepted yt-dlp attempt (exit 0 and an existing file of size at
least 1 MiB, the extension being ignored); when no invocation outcome is
acceptable the loop never reports success. -/
theorem c3_backend_order_and_acceptance (env : Nat → Outcome) (ext : String)
    (cands : List (String × String)) (k : Nat) (fs : Option Nat) :
    (∀ p ∈ callsOf (tryCandidates env ext cands k fs).2.1,
        p.1 = "aria2c" ∨ p.1 = "yt-dlp") ∧
    List.Sublist (callsOf (tryCandidates env ext cands k fs).2.1)
      (cands.flatMap fun c => [("aria2c", c.2, 600), ("yt-dlp", c.2, 600)]) ∧
    (∀ t vurl rest, cands = (t, vurl) :: rest →
      strStartsWith vurl "blob:" = false → strStartsWith vurl "http" = true →
      (ariaAccepts ext (env k) = true →
        tryCandidates env ext cands k fs =
          (.success, [Ev.call "aria2c" vurl 600 fs, Ev.closeBrowser],
            fileOf (env k), k + 1)) ∧
      (ariaAccepts ext (env k) = false → ytAccepts (env (k + 1)) = true →
        (tryCandidates env ext cands k fs).1 = LoopExit.success ∧
        callsOf (tryCandidates env ext cands k fs).2.1 =
          [("aria2c", vurl, 600), ("yt-dlp", vurl, 600)])) ∧
    ((∀ j, ariaAccepts ext (env j) = false ∧ ytAccepts (env j) = false) →
      (tryCandidates env ext cands k fs).1 ≠ LoopExit.success) := by
  refine ⟨?_, tryCandidates_calls_sublist env ext cands k fs, ?_, ?_⟩
  · intro p hp
    have hmem := (tryCandidates_calls_sublist env ext cands k fs).subset hp
    obtain ⟨c, -, hc⟩ := List.mem_flatMap.1 hmem
    rcases List.mem_cons.1 hc with h1 | h1
    · rw [h1]
      exact Or.inl rfl
    · rw [List.mem_singleton.1 h1]
      exact Or.inr rfl
  · intro t vurl rest hc hb hh
    subst hc
    constructor
    · intro hAcc
      rw [tryCandidates_cons_http hb hh, ariaStep_accept_eq hAcc vurl fs]
      rfl
    · intro hAf hYacc
      rw [tryCandidates_cons_http hb hh]
      rcases hA : ariaStep (env k) ext vurl fs with ⟨b, evs, fs1⟩
      have hbc : callsOf evs = [("aria2c", vurl, 600)] := by
        have hx := ariaStep_calls (env k) ext vurl fs
        rw [hA] at hx
        exact hx
      have hbf : b = false := by
        have hx := ariaStep_fst (env k) ext vurl fs
        rw [hA] at hx
        exact hx.trans hAf
      subst hbf
      dsimp only
      rw [ytStep_accept_eq hYacc vurl fs1]
      dsimp only
      refine ⟨rfl, ?_⟩
      rw [callsOf_append, callsOf_append, hbc]
      rfl
  · intro hnone
    exact tryCandidates_no_accept hnone cands k fs

/-- Witness for the amended C3: an accepted aria2c attempt ends the run. -/
theorem c3_backend_order_and_acceptance_witness :
    tryCandidates (fun _ => Outcome.ran 0 (some 2000000)) ".mp4"
        [("video", "http://w3/v.mp4")] 0 none =
      (LoopExit.success, [Ev.call "aria2c" "http://w3/v.mp4" 600 none, Ev.closeBrowser],
        some 2000000, 1) :=
  ((c3_backend_order_and_acceptance (fun _ => Outcome.ran 0 (some 2000000)) ".mp4"
      [("video", "http://w3/v.mp4")] 0 none).2.2.1 "video" "http://w3/v.mp4" [] rfl
      (by decide) (by decide)).1 (by decide)

/-- C4 counterexample: for candidate 1 the yt-dlp invocation exits 0 and
leaves a 10-byte file (below the 1 MiB threshold) at the destination; the
run proceeds, and candidate 2's aria2c attempt starts with that too-small
file still present (its recorded file-at-start is `some 10`), so a
too-small file is not always deleted before the next attempt. -/
theorem c4_small_file_left_counterexample :
    (tryCandidates
        (fun j => if j = 0 then Outcome.ran 1 none
          else if j = 1 then Outcome.ran 0 (some 10) else Outcome.ran 1 (some 10))
        ".bin" [("video", "http://a/1"), ("video", "http://a/2")] 0 none).2.1 =
      [Ev.call "aria2c" "http://a/1" 600 none, Ev.call "yt-dlp" "http://a/1" 600 none,
       Ev.call "aria2c" "http://a/2" 600 (some 10),
       Ev.call "yt-dlp" "http://a/2" 600 (some 10)] ∧
    10 < MIN_VIDEO_SIZE := by decide

/-- C4 amended: an accepted aria2c attempt stops all further backend and
candidate trials at once; and an aria2c invocation that exits 0 leaving an
existing too-small file (with an unknown extension) has that file deleted
before yt-dlp runs, whose invocation therefore starts with no file at the
destination.  (A too-small file left by yt-dlp itself is not deleted, as
the counterexample shows.) -/
theorem c4_stop_on_success_and_aria_cleanup (env : Nat → Outcome)
    (ext t vurl : String) (rest : List (String × String)) (k : Nat) (fs : Option Nat)
    (h1 : strStartsWith vurl "blob:" = false) (h2 : strStartsWith vurl "http" = true) :
    (ariaAccepts ext (env k) = true →
      tryCandidates env ext ((t, vurl) :: rest) k fs =
        (.success, [Ev.call "aria2c" vurl 600 fs, Ev.closeBrowser],
          fileOf (env k), k + 1)) ∧
    (∀ size, env k = .ran 0 (some size) → size < MIN_VIDEO_SIZE →
      ext ∉ VIDEO_EXTENSIONS →
      ∃ tl, (tryCandidates env ext ((t, vurl) :: rest) k fs).2.1 =
        Ev.call "aria2c" vurl 600 fs :: Ev.removeFile ::
          Ev.call "yt-dlp" vurl 600 none :: tl) := by
  constructor
  · intro hAcc
    rw [tryCandidates_cons_http h1 h2, ariaStep_accept_eq hAcc vurl fs]
    rfl
  · intro size hE hsz hx
    rw [tryCandidates_cons_http h1 h2, hE, ariaStep_small_eq hsz hx vurl fs]
    dsimp only
    rcases hY : ytStep (env (k + 1)) vurl none with ⟨sr, evs2, fs2⟩
    have hx2 : evs2 = [Ev.call "yt-dlp" vurl 600 none] := by
      have hyt := ytStep_evs (env (k + 1)) vurl none
      rw [hY] at hyt
      exact hyt
    subst hx2
    cases sr
    · exact ⟨[Ev.closeBrowser], by simp⟩
    · exact ⟨(tryCandidates env ext rest (k + 2) fs2).2.1, by simp⟩
    · exact ⟨[], by simp⟩

/-- Witness for the amended C4: the too-small file left by an exit-0
aria2c invocation is removed and yt-dlp starts with no file present. -/
theorem c4_stop_on_success_and_aria_cleanup_witness :
    ∃ tl, (tryCandidates (fun _ => Outcome.ran 0 (some 10)) ".bin"
        [("video", "http://w4/v")] 0 (some 7)).2.1 =
      Ev.call "aria2c" "http://w4/v" 600 (some 7) :: Ev.removeFile ::
        Ev.call "yt-dlp" "http://w4/v" 600 none :: tl :=
  (c4_stop_on_success_and_aria_cleanup (fun _ => Outcome.ran 0 (some 10)) ".bin"
      "video" "http://w4/v" [] 0 (some 7) (by decide) (by decide)).2
    10 rfl (by decide) (by decide)

/-- C5: a run whose filtered ExtractionResult is empty fails with the
browser closed and no downloader invocation, and the corresponding process
exit code is 1; in general the process exits 0 exactly when the run
reports success. -/
theorem c5_empty_result_failure_and_exit_codes :
    (∀ (env : BrowserEnv) (url filename prog : String) (restArgs : List String),
      env.gotoOk = true → extractionResult env.page url = [] →
        download_with_browser env url filename = (false, [Ev.closeBrowser], env.initFile) ∧
        callsOf (download_with_browser env url filename).2.1 = [] ∧
        mainExitCode env (prog :: url :: filename :: restArgs) = 1) ∧
    (∀ (env : BrowserEnv) (prog url filename : String) (restArgs : List String),
      mainExitCode env (prog :: url :: filename :: restArgs) = 0 ↔
        (download_with_browser env url filename).1 = true) := by
  constructor
  · intro env url filename prog restArgs hg hempty
    have hdl : download_with_browser env url filename =
        (false, [Ev.closeBrowser], env.initFile) := by
      unfold download_with_browser
      simp [hg, hempty]
    refine ⟨hdl, by rw [hdl]; rfl, ?_⟩
    unfold mainExitCode
    rw [if_neg (by simp only [List.length_cons]; omega)]
    dsimp only
    rw [hdl]
    rfl
  · intro env prog url filename restArgs
    unfold mainExitCode
    rw [if_neg (by simp only [List.length_cons]; omega)]
    dsimp only
    cases hb : (download_with_browser env url filename).1 <;> simp [hb]

/-- Witness for C5 at a concrete empty page. -/
theorem c5_empty_result_failure_and_exit_codes_witness :
    download_with_browser ⟨true, ⟨[], [], [], [], [], []⟩, fun _ => Outcome.ran 0 none, none⟩
        "http://w5/" "out.mp4" = (false, [Ev.closeBrowser], none) ∧
    callsOf (download_with_browser ⟨true, ⟨[], [], [], [], [], []⟩,
        fun _ => Outcome.ran 0 none, none⟩ "http://w5/" "out.mp4").2.1 = [] ∧
    mainExitCode ⟨true, ⟨[], [], [], [], [], []⟩, fun _ => Outcome.ran 0 none, none⟩
        ("prog" :: "http://w5/" :: "out.mp4" :: []) = 1 :=
  c5_empty_result_failure_and_exit_codes.1
    ⟨true, ⟨[], [], [], [], [], []⟩, fun _ => Outcome.ran 0 none, none⟩
    "http://w5/" "out.mp4" "prog" [] rfl (by decide)

/-- C8: on every modelled exit path of a run — failed navigation (the
outer handler), empty candidate list, an accepted attempt, exhaustion of
all candidates, and a propagated yt-dlp exception — the browser-close
event is in the run's trace before it returns. -/
theorem c8_browser_closed_on_all_paths (env : BrowserEnv) (url filename : String) :
    Ev.closeBrowser ∈ (download_with_browser env url filename).2.1 := by
  unfold download_with_browser
  split
  · exact List.mem_singleton.2 rfl
  · split
    · exact List.mem_singleton.2 rfl
    · split
      · rename_i evs fsx kx heq
        have hc := @tryCandidates_success_close env.outcomes (splitextExtLower filename)
          (extractionResult env.page url) 0 env.initFile (by rw [heq])
        rw [heq] at hc
        exact hc
      · exact List.mem_append.2 (Or.inr (List.mem_singleton.2 rfl))
      · exact List.mem_append.2 (Or.inr (List.mem_singleton.2 rfl))

/-- C9 counterexample: both backends fail for the only candidate, yet each
is invoked exactly once — there is no retry (and hence no backoff between
retries) in the dispatcher. -/
theorem c9_no_retry_counterexample :
    callsOf (tryCandidates (fun _ => Outcome.ran 1 none) ".bin"
        [("video", "http://a/v")] 0 none).2.1 =
      [("aria2c", "http://a/v", 600), ("yt-dlp", "http://a/v", 600)] := by decide

/-- C9 amended: every external downloader invocation carries the fixed
600-second subprocess timeout, and each backend is invoked at most once
per candidate (aria2c before yt-dlp); a failing invocation is not retried
— the dispatcher moves on to the next backend or candidate. -/
theorem c9_single_timed_invocation_per_backend (env : Nat → Outcome) (ext : String)
    (cands : List (String × String)) (k : Nat) (fs : Option Nat) :
    List.Sublist (callsOf (tryCandidates env ext cands k fs).2.1)
      (cands.flatMap fun c => [("aria2c", c.2, 600), ("yt-dlp", c.2, 600)]) ∧
    ∀ p ∈ callsOf (tryCandidates env ext cands k fs).2.1, p.2.2 = 600 := by
  refine ⟨tryCandidates_calls_sublist env ext cands k fs, ?_⟩
  intro p hp
  have hmem := (tryCandidates_calls_sublist env ext cands k fs).subset hp
  obtain ⟨c, -, hc⟩ := List.mem_flatMap.1 hmem
  rcases List.mem_cons.1 hc with h1 | h1
  · rw [h1]
  · rw [List.mem_singleton.1 h1]

/-- Witness for the amended C9 at a concrete run. -/
theorem c9_single_timed_invocation_per_backend_witness :
    ((("aria2c", "http://w9/v", 600) : String × String × Nat)).2.2 = 600 :=
  (c9_single_timed_invocation_per_backend (fun _ => Outcome.ran 1 (some 3)) ".bin"
      [("video", "http://w9/v")] 0 none).2 ("aria2c", "http://w9/v", 600) (by decide)

/-- C10: every downloader invocation of a run is on a URL beginning with
`http`; candidates with any other prefix (blob references, relative paths,
other schemes) are skipped with no download attempt. -/
theorem c10_only_http_candidates_fetched (env : BrowserEnv) (url filename : String) :
    ∀ p ∈ callsOf (download_with_browser env url filename).2.1,
      strStartsWith p.2.1 "http" = true := by
  unfold download_with_browser
  split
  · intro p hp
    exact absurd hp (by simp [callsOf])
  · split
    · intro p hp
      exact absurd hp (by simp [callsOf])
    · split
      · rename_i evs fsx kx heq
        intro p hp
        have hcalls := tryCandidates_calls_http env.outcomes (splitextExtLower filename)
          (extractionResult env.page url) 0 env.initFile
        rw [heq] at hcalls
        exact hcalls p hp
      · rename_i evs fsx kx heq
        intro p hp
        have hcalls := tryCandidates_calls_http env.outcomes (splitextExtLower filename)
          (extractionResult env.page url) 0 env.initFile
        rw [heq] at hcalls
        rw [callsOf_append, show callsOf [Ev.closeBrowser] = [] from rfl,
          List.append_nil] at hp
        exact hcalls p hp
      · rename_i evs fsx kx heq
        intro p hp
        have hcalls := tryCandidates_calls_http env.outcomes (splitextExtLower filename)
          (extractionResult env.page url) 0 env.initFile
        rw [heq] at hcalls
        rw [callsOf_append, show callsOf [Ev.closeBrowser] = [] from rfl,
          List.append_nil] at hp
        exact hcalls p hp

/-- Witness for C10 at a concrete run with both backends failing. -/
theorem c10_only_http_candidates_fetched_witness :
    strStartsWith ((("aria2c", "http://w10/v.mp4", 600) : String × String × Nat)).2.1
      "http" = true :=
  c10_only_http_candidates_fetched
    ⟨true, ⟨[⟨some "http://w10/v.mp4", none⟩], [], [], [], [], []⟩,
      fun _ => Outcome.ran 1 none, none⟩
    "http://w10/" "out.bin" ("aria2c", "http://w10/v.mp4", 600) (by decide)

end BrowserDownload
